import Mathlib

/-!
# Verification of `sugar_path` (src/lib.rs)

Shallow embedding of the path-manipulation library in `src/src/lib.rs`.

The library works over `std::path::Component` values.  We model them with the
`Component` inductive below; the Rust variant `Component::Prefix` (a Windows
drive letter or UNC qualifier, carried as opaque text) is named `Volume` here.
`CurDir` is `.`, `ParentDir` is `..`, `Normal` is a named segment.

Strings are modelled by Lean `String` (a list of characters).  Rust operates on
bytes, but `'/'` never occurs inside a multi-byte UTF-8 character, so the
character-level model agrees with the byte-level one on separator handling.

The process-wide cached working directory (`CWD` in the source, a lazily
initialised global) is modelled as an explicit `cwd : String` parameter of
`posixResolve` / `posixRelative`; the claims that depend on it assume it is
absolute, which is what `std::env::current_dir` guarantees.
-/

/-- Models `std::path::Component`.  `Volume s` models `Component::Prefix`
(drive letter / UNC qualifier, opaque text, compared for equality only). -/
inductive Component where
  | Volume (s : String)
  | RootDir
  | CurDir
  | ParentDir
  | Normal (s : String)
deriving DecidableEq, Repr

/-- `true` exactly on `Component::Prefix` (our `Volume`). -/
def Component.isVolumeSeg : Component → Bool
  | Component.Volume _ => true
  | _ => false

/-- `true` exactly on `Component::Normal`. -/
def Component.isNormalSeg : Component → Bool
  | Component.Normal _ => true
  | _ => false

/-- One step of the collapse loop of `normalize_to_component_vec`
(src/lib.rs lines 92-122).  The source pushes/pops at the end of a `Vec`;
we keep the stack reversed (head = most recently pushed = `ret.last()`),
and `normalize_to_component_vec` reverses the final stack back.

Case mapping to the source:
* `Volume`: the source's in-loop `Prefix` arm is `unreachable!()` because
  `std`'s component iterator only ever yields a prefix first; the prefix is
  instead pushed before the loop (lines 85-90).  Pushing here makes the
  pre-loop peel and the loop body a single fold; theorems that depend on it
  assume the `std` well-formedness (no mid-stream `Volume`).
* `RootDir` (line 95): always pushed.
* `CurDir` (line 98): dropped.
* `ParentDir` (lines 99-117): if `ret.last()` is `None` or a prefix, push;
  else if `ret.last()` is `RootDir`, do nothing; else if it is `ParentDir`,
  push; else pop.
* `Normal` (line 118): always pushed. -/
def collapsePush (ret : List Component) (c : Component) : List Component :=
  match c with
  | Component.Volume s => Component.Volume s :: ret
  | Component.RootDir => Component.RootDir :: ret
  | Component.CurDir => ret
  | Component.ParentDir =>
    match ret.head? with
    | none => Component.ParentDir :: ret
    | some (Component.Volume _) => Component.ParentDir :: ret
    | some Component.RootDir => ret
    | some Component.ParentDir => Component.ParentDir :: ret
    | some _ => ret.tail
  | Component.Normal s => Component.Normal s :: ret

/-- The fold at the heart of `normalize_to_component_vec`, producing the
stack in reversed (head = top) order. -/
def collapseRev (components : List Component) : List Component :=
  components.foldl collapsePush []

/-- `normalize_to_component_vec` (src/lib.rs lines 83-124): peel an initial
prefix into the output vector, then run the collapse loop over the remaining
components.  Our stack is reversed, so the result is reversed at the end. -/
def normalize_to_component_vec (path : List Component) : List Component :=
  match path with
  | Component.Volume s :: components =>
    (components.foldl collapsePush [Component.Volume s]).reverse
  | components => (components.foldl collapsePush []).reverse

/-- Splitting a character list on `'/'`, mirroring how `std`'s component
iterator tokenizes a POSIX path body.  `[] ↦ [[]]`, so that e.g.
`"/a" ↦ [[], ['a']]` and `"a//b" ↦ [['a'], [], ['b']]`. -/
def splitSlash : List Char → List (List Char)
  | [] => [[]]
  | c :: cs =>
    if c = '/' then [] :: splitSlash cs
    else
      match splitSlash cs with
      | [] => [[c]]
      | t :: ts => (c :: t) :: ts

/-- Token classification of `std`'s component iterator: `".."` is
`ParentDir`, anything else a `Normal` (empty and `"."` tokens are filtered
out before this is applied). -/
def classifyTok (t : String) : Component :=
  if t = ".." then Component.ParentDir else Component.Normal t

/-- `Path::components()` on POSIX (the decomposer):
* split on `'/'`; empty tokens (repeated or trailing separators) vanish;
* a leading `'/'` yields `RootDir`;
* `"."` tokens are dropped, except that a relative path whose first raw
  token is exactly `"."` keeps one leading `CurDir` (std's
  `include_cur_dir`);
* `".."` tokens are `ParentDir`, everything else `Normal`.

The classified body tokens (`parseBody`): split on `'/'`, drop empty and
`"."` tokens, classify the rest. -/
def parseBody (s : String) : List Component :=
  ((splitSlash s.data).filter (fun l => decide (l ≠ [] ∧ l ≠ ['.']))).map
    (fun l => classifyTok (String.mk l))

/-- `Path::components()` on POSIX, assembled from `parseBody` plus the root
marker / leading `CurDir` rules described above. -/
def parsePosix (s : String) : List Component :=
  if s.data.head? = some '/' then Component.RootDir :: parseBody s
  else if (splitSlash s.data).head? = some ['.'] then Component.CurDir :: parseBody s
  else parseBody s

/-- `Component::as_os_str()` rendered on POSIX conventions. -/
def Component.osStr : Component → String
  | Component.Volume s => s
  | Component.RootDir => "/"
  | Component.CurDir => "."
  | Component.ParentDir => ".."
  | Component.Normal s => s

/-- `PathBuf::push` on POSIX (used by `component_vec_to_path_buf` and by
`resolve`/`relative`): an absolute piece replaces the buffer; otherwise a
`'/'` separator is inserted unless the buffer is empty or already ends in
one, and the piece is appended. -/
def posixPush (acc piece : String) : String :=
  if piece.data.head? = some '/' then piece
  else if acc.data = [] then acc ++ piece
  else if acc.data.getLast? = some '/' then acc ++ piece
  else acc ++ "/" ++ piece

/-- `component_vec_to_path_buf` (src/lib.rs lines 126-135): fold
`PathBuf::push` over the components' `as_os_str` texts. -/
def component_vec_to_path_buf (components : List Component) : String :=
  components.foldl (fun acc c => posixPush acc c.osStr) ""

/-- `Path::is_absolute()` on POSIX: the path has a root, i.e. begins
with `'/'`. -/
def posixIsAbsolute (s : String) : Bool := s.data.head? = some '/'

/-- `normalize` (src/lib.rs lines 149-155, the POSIX branch):
decompose, collapse, append `CurDir` if the result is empty, reassemble. -/
def posixNormalize (s : String) : String :=
  let components := normalize_to_component_vec (parsePosix s)
  let components :=
    if components.length = 0 then components ++ [Component.CurDir]
    else components
  component_vec_to_path_buf components

/-- `resolve` (src/lib.rs lines 182-190, the POSIX branch): normalize an
absolute path directly, otherwise push the path onto (a clone of) the cached
working directory and normalize that. -/
def posixResolve (cwd s : String) : String :=
  if posixIsAbsolute s then posixNormalize s
  else posixNormalize (posixPush cwd s)

/-- `OsStr::to_ascii_lowercase`: ASCII letters are lowercased, every other
character is unchanged (`Char.toLower` only affects `'A'`-`'Z'`). -/
def asciiLower (s : String) : String := String.mk (s.data.map Char.toLower)

/-- The advance condition of `relative`'s common-prefix loop
(src/lib.rs lines 226-245): on Windows two `Normal` segments that agree
case-insensitively match (lines 231-240); otherwise the loop advances
exactly when the two components are equal (lines 241-244). -/
def matchesStep (win : Bool) (a b : Component) : Bool :=
  (win &&
    match a, b with
    | Component.Normal f, Component.Normal t => asciiLower f == asciiLower t
    | _, _ => false) ||
  a == b

/-- The common-prefix walk of `relative` (the `while i < longest_len` loop,
src/lib.rs lines 226-245), restructured on list suffixes: the loop index `i`
advances while the components at `i` match, and breaks at the first
mismatch, including the case where one sequence is exhausted
(`Option` mismatch `Some`/`None`).  Returns the final value of `i`. -/
def relativeWalk (win : Bool) : List Component → List Component → Nat
  | f :: fs, t :: ts =>
    if matchesStep win f t then relativeWalk win fs ts + 1 else 0
  | _, _ => 0

/-- The defensive filter of `relative` (src/lib.rs lines 203-208 and
213-218): keep `Normal`, `Prefix` (our `Volume`) and `RootDir`. -/
def keepComponent : Component → Bool
  | Component.Normal _ => true
  | Component.Volume _ => true
  | Component.RootDir => true
  | _ => false

/-- `relative` (src/lib.rs lines 193-259, POSIX): resolve both paths
(`base` from the `to` argument, `target` from `self`), return the empty
path if they agree; otherwise filter both component sequences, walk the
common prefix, then emit `".."` for every remaining `base` component
followed by the remaining `target` components, each through
`PathBuf::push`. -/
def posixRelative (cwd p q : String) : String :=
  let base := posixResolve cwd q
  let target := posixResolve cwd p
  if base = target then ""
  else
    let base_components := (parsePosix base).filter keepComponent
    let target_components := (parsePosix target).filter keepComponent
    let i := relativeWalk false base_components target_components
    let ret := (List.replicate (base_components.length - i) "..").foldl posixPush ""
    ((target_components.drop i).map Component.osStr).foldl posixPush ret

/-- The Windows empty-result check of `normalize` (src/lib.rs lines
142-147), at the component level: after collapsing, if the vector is empty
or holds nothing but a bare prefix, a `CurDir` is pushed. -/
def windowsFinalizeComponents (path : List Component) : List Component :=
  match normalize_to_component_vec path with
  | [] => [Component.CurDir]
  | [Component.Volume s] => [Component.Volume s, Component.CurDir]
  | components => components

/-- One collapse step as worded by the specification (section 4.2), for the
refinement comparison with `collapsePush`: `CurDir` is dropped; `Volume`
(the spec's `Prefix`), `RootDir` and `Normal` are always pushed; a
`ParentDir` is pushed when the stack is empty or its only entry is a
prefix, dropped when the top is `RootDir`, pushed when the top is
`ParentDir`, and otherwise (top a `Normal`) pops the top.  The stack is in
reversed order (head = top), as in `collapseRev`. -/
def collapseStepSpec (stack : List Component) (c : Component) : List Component :=
  match c with
  | Component.CurDir => stack
  | Component.ParentDir =>
    match stack with
    | [] => [Component.ParentDir]
    | [Component.Volume s] => [Component.ParentDir, Component.Volume s]
    | Component.RootDir :: _ => stack
    | Component.ParentDir :: _ => Component.ParentDir :: stack
    | _ => stack.tail
  | c => c :: stack

/-- No `Volume` (Rust `Component::Prefix`) occurs in the list.  `std`'s
component iterator guarantees this for every component after the first. -/
def noVolume (l : List Component) : Prop :=
  ∀ c ∈ l, c.isVolumeSeg = false

instance : DecidablePred noVolume := fun l =>
  inferInstanceAs (Decidable (∀ c ∈ l, c.isVolumeSeg = false))

/-- A well-formed token: what `Normal` segments produced by the POSIX
decomposer look like (non-empty, not `"."` or `".."`, no separator). -/
def goodTok (t : String) : Prop :=
  t ≠ "" ∧ t ≠ "." ∧ t ≠ ".." ∧ '/' ∉ t.data

instance : DecidablePred goodTok := fun t =>
  inferInstanceAs (Decidable (t ≠ "" ∧ t ≠ "." ∧ t ≠ ".." ∧ '/' ∉ t.data))

/-- A separator-free, non-empty piece of text: what every token produced by
the decomposer looks like, and also `".."`. -/
def sepFree (t : String) : Prop := t.data ≠ [] ∧ '/' ∉ t.data

instance : DecidablePred sepFree := fun t =>
  inferInstanceAs (Decidable (t.data ≠ [] ∧ '/' ∉ t.data))

/-- `interSlash ps` is the character list of the pieces `ps` joined by a
single `'/'` — the canonical rendering of a separator-free piece list. -/
def interSlash : List String → List Char
  | [] => []
  | [t] => t.data
  | t :: ts => t.data ++ '/' :: interSlash ts

/-- What `parseBody` can produce: `ParentDir`s and well-formed `Normal`s. -/
def bodyOK (c : Component) : Prop :=
  c = Component.ParentDir ∨ ∃ t, c = Component.Normal t ∧ goodTok t

/-- The three-part rendering of `slash`-joined pieces used below:
`slashPieces ps` is `interSlash` with a separator in front of every piece. -/
def slashPieces : List String → List Char
  | [] => []
  | t :: ts => '/' :: (t.data ++ slashPieces ts)

/-- What the non-prefix, non-`ParentDir` zone of a collapsed stack may hold:
anything except `ParentDir`, `CurDir` and `Prefix`. -/
def okRest (c : Component) : Prop :=
  c ≠ Component.ParentDir ∧ c ≠ Component.CurDir ∧ c.isVolumeSeg = false

/-- Invariant of the collapse stack (reversed order, head = top): a possible
`Prefix` at the bottom, then a block of `ParentDir`s, then entries that are
neither `ParentDir` nor `CurDir` nor a prefix. -/
def StackShape (st : List Component) : Prop :=
  ∃ w k v, st = w ++ List.replicate k Component.ParentDir ++ v ∧
    (v = [] ∨ ∃ s, v = [Component.Volume s]) ∧ ∀ c ∈ w, okRest c

-- Sanity checks (doc examples of the source, evaluated on the model).
example : posixNormalize "/foo/bar//baz/asdf/quux/.." = "/foo/bar/baz/asdf" := by decide
example : posixNormalize "" = "." := by decide
example : posixNormalize "../../foo" = "../../foo" := by decide
example : posixNormalize "/../foo" = "/foo" := by decide
example : posixRelative "/" "/var" "/var/lib" = ".." := by decide
example : posixRelative "/" "/bin" "/var/lib" = "../../bin" := by decide
example : posixRelative "/" "/a/b/c/d" "/a/b/f/g" = "../../c/d" := by decide
example : posixResolve "/home/u" "x/./y/../z" = "/home/u/x/z" := by decide

/-! ## Basic plumbing lemmas -/

theorem normalize_eq_collapseRev (cs : List Component) :
    normalize_to_component_vec cs = (collapseRev cs).reverse := by
  cases cs with
  | nil => rfl
  | cons c rest => cases c <;> rfl

theorem goodTok_sepFree {t : String} (h : goodTok t) : sepFree t := by
  obtain ⟨h1, _, _, h4⟩ := h
  refine ⟨?_, h4⟩
  intro hd
  exact h1 (by cases t with | mk d => simp_all)

/-! ## Claim C9: `relative` on equal resolutions -/

/-- C9.  `relative(a, a)` is the empty path; more generally `relative`
returns the empty string whenever the two arguments resolve to the same
absolute form (src/lib.rs lines 195-199). -/
theorem c9_relative_self_empty (cwd p q : String)
    (h : posixResolve cwd p = posixResolve cwd q) :
    posixRelative cwd p q = "" := by
  unfold posixRelative
  simp [h]

/-- Witness for C9 at a concrete input. -/
theorem c9_relative_self_empty_witness :
    posixRelative "/home/u" "/a/b" "/a/b" = "" :=
  c9_relative_self_empty "/home/u" "/a/b" "/a/b" rfl

/-! ## Claim C2: the collapse step matches the spec's description

The source keys the `ParentDir` decision on `ret.last()` (`None | Prefix`
⇒ push); the spec says "the stack is empty or its only entry is a Prefix".
These agree on every stack reachable during the pass, because a prefix can
only ever sit at the bottom of the stack. -/

theorem collapsePush_eq_spec (st : List Component) (c : Component)
    (hc : c.isVolumeSeg = false) (hst : noVolume st.dropLast) :
    collapsePush st c = collapseStepSpec st c := by
  cases c with
  | Volume s => simp [Component.isVolumeSeg] at hc
  | RootDir => rfl
  | CurDir => rfl
  | Normal s => rfl
  | ParentDir =>
    cases st with
    | nil => rfl
    | cons d rest =>
      cases d with
      | Volume s =>
        cases rest with
        | nil => rfl
        | cons e rest2 =>
          have hmem : Component.Volume s ∈ (Component.Volume s :: e :: rest2).dropLast := by
            rw [List.dropLast_cons₂]
            exact List.mem_cons_self _ _
          have := hst _ hmem
          simp [Component.isVolumeSeg] at this
      | RootDir => rfl
      | CurDir => rfl
      | ParentDir => rfl
      | Normal t => rfl

theorem noVolume_dropLast_cons {c : Component} {st : List Component}
    (hc : c.isVolumeSeg = false) (hst : noVolume st.dropLast) :
    noVolume (c :: st).dropLast := by
  cases st with
  | nil => intro x hx; simp at hx
  | cons d rest =>
    intro x hx
    rw [List.dropLast_cons₂] at hx
    rcases List.mem_cons.mp hx with h | h
    · exact h ▸ hc
    · exact hst x h

theorem noVolume_dropLast_tail {st : List Component}
    (hst : noVolume st.dropLast) : noVolume st.tail.dropLast := by
  cases st with
  | nil => exact hst
  | cons d rest =>
    cases rest with
    | nil => intro x hx; simp at hx
    | cons e r2 =>
      intro x hx
      exact hst x (by rw [List.dropLast_cons₂]; exact List.mem_cons_of_mem _ hx)

theorem noVolume_dropLast_collapsePush (st : List Component) (c : Component)
    (hc : c.isVolumeSeg = false) (hst : noVolume st.dropLast) :
    noVolume (collapsePush st c).dropLast := by
  cases c with
  | Volume s => simp [Component.isVolumeSeg] at hc
  | RootDir => exact noVolume_dropLast_cons rfl hst
  | CurDir => exact hst
  | Normal s => exact noVolume_dropLast_cons rfl hst
  | ParentDir =>
    show noVolume ((match st.head? with
      | none => Component.ParentDir :: st
      | some (Component.Volume _) => Component.ParentDir :: st
      | some Component.RootDir => st
      | some Component.ParentDir => Component.ParentDir :: st
      | some _ => st.tail) : List Component).dropLast
    cases st with
    | nil => intro x hx; simp at hx
    | cons d rest =>
      cases d with
      | Volume s => exact noVolume_dropLast_cons rfl hst
      | RootDir => exact hst
      | CurDir => exact noVolume_dropLast_tail hst
      | ParentDir => exact noVolume_dropLast_cons rfl hst
      | Normal t => exact noVolume_dropLast_tail hst

theorem foldl_collapsePush_eq_spec (l : List Component) :
    ∀ st, noVolume l → noVolume st.dropLast →
    l.foldl collapsePush st = l.foldl collapseStepSpec st := by
  induction l with
  | nil => intro st _ _; rfl
  | cons c cs ih =>
    intro st hl hst
    have hc : c.isVolumeSeg = false := hl c (List.mem_cons_self _ _)
    have hcs : noVolume cs := fun x hx => hl x (List.mem_cons_of_mem _ hx)
    rw [List.foldl_cons, List.foldl_cons, collapsePush_eq_spec st c hc hst]
    exact ih _ hcs
      (collapsePush_eq_spec st c hc hst ▸ noVolume_dropLast_collapsePush st c hc hst)

/-- C2.  On any well-formed component sequence (a `Prefix` can only come
first, as `std`'s iterator guarantees), the collapse pass of
`normalize_to_component_vec` is exactly the left-to-right stack rewrite
described by the spec: `CurDir` dropped; `Prefix`, `RootDir`, `Normal`
pushed; `ParentDir` pushed on an empty or only-a-prefix stack, dropped on a
`RootDir` top, pushed on a `ParentDir` top, and popping a `Normal` top. -/
theorem c2_collapse_matches_spec (cs : List Component) (h : noVolume cs.tail) :
    normalize_to_component_vec cs = (cs.foldl collapseStepSpec []).reverse := by
  rw [normalize_eq_collapseRev]
  congr 1
  cases cs with
  | nil => rfl
  | cons c rest =>
    have hrest : noVolume rest := h
    show rest.foldl collapsePush (collapsePush [] c) =
      rest.foldl collapseStepSpec (collapseStepSpec [] c)
    have h0 : collapsePush [] c = collapseStepSpec [] c := by cases c <;> rfl
    rw [h0]
    refine foldl_collapsePush_eq_spec rest _ hrest ?_
    cases c <;> (intro x hx; simp [collapseStepSpec] at hx)

/-- Witness for C2 at a concrete well-formed input. -/
theorem c2_collapse_matches_spec_witness :
    noVolume ([Component.Volume "C:", Component.RootDir, Component.Normal "a",
      Component.ParentDir, Component.ParentDir] : List Component).tail ∧
    normalize_to_component_vec [Component.Volume "C:", Component.RootDir,
      Component.Normal "a", Component.ParentDir, Component.ParentDir] =
    (List.foldl collapseStepSpec [] [Component.Volume "C:", Component.RootDir,
      Component.Normal "a", Component.ParentDir, Component.ParentDir]).reverse :=
  ⟨by decide, c2_collapse_matches_spec _ (by decide)⟩

/-! ## Claim C3: invariants of the collapsed component sequence -/

theorem collapsePush_shape (st : List Component) (c : Component)
    (hc : c.isVolumeSeg = false) (h : StackShape st) :
    StackShape (collapsePush st c) := by
  obtain ⟨w, k, v, rfl, hv, hw⟩ := h
  cases c with
  | Volume s => simp [Component.isVolumeSeg] at hc
  | RootDir =>
    refine ⟨Component.RootDir :: w, k, v, rfl, hv, ?_⟩
    intro x hx
    rcases List.mem_cons.mp hx with h | h
    · exact h ▸ ⟨by simp, by simp, rfl⟩
    · exact hw x h
  | Normal s =>
    refine ⟨Component.Normal s :: w, k, v, rfl, hv, ?_⟩
    intro x hx
    rcases List.mem_cons.mp hx with h | h
    · exact h ▸ ⟨by simp, by simp, rfl⟩
    · exact hw x h
  | CurDir => exact ⟨w, k, v, rfl, hv, hw⟩
  | ParentDir =>
    cases w with
    | nil =>
      cases k with
      | zero =>
        rcases hv with rfl | ⟨s, rfl⟩
        · exact ⟨[], 1, [], rfl, Or.inl rfl, by intro x hx; simp at hx⟩
        · exact ⟨[], 1, [Component.Volume s], rfl, Or.inr ⟨s, rfl⟩,
            by intro x hx; simp at hx⟩
      | succ k' =>
        refine ⟨[], k' + 2, v, ?_, hv, by intro x hx; simp at hx⟩
        show collapsePush (List.replicate (k' + 1) Component.ParentDir ++ v)
          Component.ParentDir = _
        rw [List.replicate_succ, List.cons_append]
        rfl
    | cons d w' =>
      obtain ⟨hd1, hd2, hd3⟩ := hw d (List.mem_cons_self _ _)
      cases d with
      | Volume s => simp [Component.isVolumeSeg] at hd3
      | CurDir => exact absurd rfl hd2
      | ParentDir => exact absurd rfl hd1
      | RootDir =>
        exact ⟨Component.RootDir :: w', k, v, rfl, hv, hw⟩
      | Normal t =>
        refine ⟨w', k, v, rfl, hv, ?_⟩
        intro x hx
        exact hw x (List.mem_cons_of_mem _ hx)

theorem foldl_collapsePush_shape (l : List Component) :
    ∀ st, noVolume l → StackShape st → StackShape (l.foldl collapsePush st) := by
  induction l with
  | nil => intro st _ h; exact h
  | cons c cs ih =>
    intro st hl hst
    exact ih _ (fun x hx => hl x (List.mem_cons_of_mem _ hx))
      (collapsePush_shape st c (hl c (List.mem_cons_self _ _)) hst)

theorem collapseRev_shape (cs : List Component) (h : noVolume cs.tail) :
    StackShape (collapseRev cs) := by
  cases cs with
  | nil => exact ⟨[], 0, [], rfl, Or.inl rfl, by intro x hx; simp at hx⟩
  | cons c rest =>
    show StackShape (rest.foldl collapsePush (collapsePush [] c))
    refine foldl_collapsePush_shape rest _ h ?_
    cases c with
    | Volume s =>
      exact ⟨[], 0, [Component.Volume s], rfl, Or.inr ⟨s, rfl⟩,
        by intro x hx; simp at hx⟩
    | RootDir =>
      exact ⟨[Component.RootDir], 0, [], rfl, Or.inl rfl,
        by intro x hx; simp at hx; exact hx ▸ ⟨by simp, by simp, rfl⟩⟩
    | CurDir => exact ⟨[], 0, [], rfl, Or.inl rfl, by intro x hx; simp at hx⟩
    | ParentDir => exact ⟨[], 1, [], rfl, Or.inl rfl, by intro x hx; simp at hx⟩
    | Normal t =>
      exact ⟨[Component.Normal t], 0, [], rfl, Or.inl rfl,
        by intro x hx; simp at hx; exact hx ▸ ⟨by simp, by simp, rfl⟩⟩

/-- The collapsed output, read left to right: an optional prefix, then a
block of `ParentDir`s, then `ParentDir`/`CurDir`/prefix-free entries. -/
theorem normalize_shape_decomp (cs : List Component) (h : noVolume cs.tail) :
    ∃ v k w, normalize_to_component_vec cs =
        v ++ List.replicate k Component.ParentDir ++ w ∧
      (v = [] ∨ ∃ s, v = [Component.Volume s]) ∧ ∀ c ∈ w, okRest c := by
  obtain ⟨w, k, v, heq, hv, hw⟩ := collapseRev_shape cs h
  refine ⟨v, k, w.reverse, ?_, hv, ?_⟩
  · rw [normalize_eq_collapseRev, heq]
    rcases hv with rfl | ⟨s, rfl⟩ <;>
      simp [List.reverse_append, List.append_assoc]
  · intro x hx
    exact hw x (List.mem_reverse.mp hx)

theorem decomp_getElem? (v w : List Component) (k i : Nat) :
    (v ++ List.replicate k Component.ParentDir ++ w)[i]? =
      if i < v.length then v[i]?
      else if i - v.length < k then some Component.ParentDir
      else w[i - v.length - k]? := by
  rw [List.append_assoc]
  by_cases h1 : i < v.length
  · rw [List.getElem?_append_left h1, if_pos h1]
  · rw [List.getElem?_append_right (Nat.le_of_not_lt h1), if_neg h1]
    by_cases h2 : i - v.length < k
    · rw [List.getElem?_append_left (by simpa using h2), if_pos h2,
        List.getElem?_replicate_of_lt h2]
    · rw [List.getElem?_append_right (by simpa using Nat.le_of_not_lt h2), if_neg h2,
        List.length_replicate]

/-- C3.  The collapsed component sequence satisfies the canonical-sequence
invariants: a `Prefix` only at index 0 (hence at most one), no `CurDir`, no
`ParentDir` immediately after a `Normal`, and everything before any
`ParentDir` is itself a `ParentDir` or the leading `Prefix` (so the
`ParentDir`s form one contiguous run at the front, never after a
`RootDir`).  The hypothesis is the well-formedness `std`'s component
iterator guarantees: no `Prefix` after the first component. -/
theorem c3_canonical_invariants (cs : List Component) (h : noVolume cs.tail) :
    (∀ (i : Nat) (s : String),
        (normalize_to_component_vec cs)[i]? = some (Component.Volume s) → i = 0)
    ∧ (∀ i : Nat, (normalize_to_component_vec cs)[i]? ≠ some Component.CurDir)
    ∧ (∀ (i : Nat) (t : String),
        ¬((normalize_to_component_vec cs)[i]? = some (Component.Normal t) ∧
          (normalize_to_component_vec cs)[i + 1]? = some Component.ParentDir))
    ∧ (∀ i j : Nat, (normalize_to_component_vec cs)[i]? = some Component.ParentDir → j < i →
          (normalize_to_component_vec cs)[j]? = some Component.ParentDir ∨
          ∃ s, (normalize_to_component_vec cs)[j]? = some (Component.Volume s)) := by
  obtain ⟨v, k, w, heq, hv, hw⟩ := normalize_shape_decomp cs h
  rw [heq]
  have hpar : ∀ i, (v ++ List.replicate k Component.ParentDir ++ w)[i]? =
      some Component.ParentDir → v.length ≤ i ∧ i - v.length < k := by
    intro i hi
    rw [decomp_getElem?] at hi
    split_ifs at hi with h1 h2
    · rcases hv with rfl | ⟨s, rfl⟩
      · simp at h1
      · have hi0 : i = 0 := by simp at h1; omega
        subst hi0
        simp at hi
    · exact ⟨Nat.le_of_not_lt h1, h2⟩
    · exact absurd rfl (hw _ (List.getElem?_mem hi)).1
  refine ⟨?_, ?_, ?_, ?_⟩
  · intro i s hi
    rw [decomp_getElem?] at hi
    split_ifs at hi with h1 h2
    · rcases hv with rfl | ⟨s0, rfl⟩
      · simp at h1
      · simp at h1; omega
    · simp at hi
    · have := (hw _ (List.getElem?_mem hi)).2.2
      simp [Component.isVolumeSeg] at this
  · intro i hi
    rw [decomp_getElem?] at hi
    split_ifs at hi with h1 h2
    · have hmem := List.getElem?_mem hi
      rcases hv with rfl | ⟨s, rfl⟩ <;> simp at hmem
    · simp at hi
    · exact absurd rfl (hw _ (List.getElem?_mem hi)).2.1
  · intro i t hit
    obtain ⟨h1, h2⟩ := hit
    obtain ⟨hia, hik⟩ := hpar (i + 1) h2
    rw [decomp_getElem?] at h1
    split_ifs at h1 with g1 g2
    · have hmem := List.getElem?_mem h1
      rcases hv with rfl | ⟨s, rfl⟩ <;> simp at hmem
    · simp at h1
    · omega
  · intro i j hi hj
    obtain ⟨hia, hik⟩ := hpar i hi
    rw [decomp_getElem?]
    by_cases hj1 : j < v.length
    · right
      rcases hv with rfl | ⟨s, rfl⟩
      · simp at hj1
      · have hj0 : j = 0 := by simp at hj1; omega
        subst hj0
        exact ⟨s, by rw [if_pos hj1]; rfl⟩
    · left
      rw [if_neg hj1, if_pos (by omega)]

/-- Witness for C3 at a concrete well-formed input. -/
theorem c3_canonical_invariants_witness :
    noVolume ([Component.ParentDir, Component.CurDir, Component.Normal "a",
      Component.ParentDir, Component.ParentDir, Component.Normal "b"] :
        List Component).tail ∧
    (∀ (i : Nat) (s : String),
      ((normalize_to_component_vec [Component.ParentDir, Component.CurDir,
        Component.Normal "a", Component.ParentDir, Component.ParentDir,
        Component.Normal "b"])[i]? = some (Component.Volume s) → i = 0)) := by
  refine ⟨by decide, ?_⟩
  exact (c3_canonical_invariants _ (by decide)).1

/-! ## Claim C8: the match rule of `relative`'s common-prefix walk -/

/-- C8.  During `relative`'s common-prefix walk, two `Normal` segments
match case-insensitively on Windows and by exact equality on POSIX, and
every other component kind matches only by exact equality (on either
platform); concretely, the walk on `C:\Foo\Bar` vs `C:\foo\baz` matches
the prefix, the root and `Foo`/`foo` (3 components). -/
theorem c8_relative_match_rule :
    (∀ f t : String, ∀ fs ts : List Component,
      relativeWalk true (Component.Normal f :: fs) (Component.Normal t :: ts) =
        (if asciiLower f = asciiLower t then relativeWalk true fs ts + 1 else 0))
    ∧ (∀ f t : String, ∀ fs ts : List Component,
      relativeWalk false (Component.Normal f :: fs) (Component.Normal t :: ts) =
        (if f = t then relativeWalk false fs ts + 1 else 0))
    ∧ (∀ (win : Bool) (a b : Component) (fs ts : List Component),
      a.isNormalSeg = false ∨ b.isNormalSeg = false →
      relativeWalk win (a :: fs) (b :: ts) =
        (if a = b then relativeWalk win fs ts + 1 else 0))
    ∧ relativeWalk true
        [Component.Volume "C:", Component.RootDir, Component.Normal "Foo",
          Component.Normal "Bar"]
        [Component.Volume "C:", Component.RootDir, Component.Normal "foo",
          Component.Normal "baz"] = 3 := by
  refine ⟨?_, ?_, ?_, by decide⟩
  · intro f t fs ts
    show (if matchesStep true (Component.Normal f) (Component.Normal t) then
      relativeWalk true fs ts + 1 else 0) = _
    by_cases h : asciiLower f = asciiLower t
    · simp [matchesStep, h]
    · have hft : f ≠ t := fun e => h (e ▸ rfl)
      simp [matchesStep, h, hft]
  · intro f t fs ts
    show (if matchesStep false (Component.Normal f) (Component.Normal t) then
      relativeWalk false fs ts + 1 else 0) = _
    by_cases h : f = t
    · simp [matchesStep, h]
    · simp [matchesStep, h]
  · intro win a b fs ts h
    show (if matchesStep win a b then relativeWalk win fs ts + 1 else 0) = _
    have hm : matchesStep win a b = (a == b) := by
      rcases h with h | h <;>
        (cases a <;> cases b <;> simp [Component.isNormalSeg] at h ⊢ <;>
          simp [matchesStep])
    rw [hm]
    by_cases hab : a = b
    · simp [hab]
    · simp [hab]

/-- Witness for C8's exact-equality part at a concrete input. -/
theorem c8_relative_match_rule_witness :
    ((Component.RootDir).isNormalSeg = false ∨
      (Component.Normal "x").isNormalSeg = false) ∧
    relativeWalk true [Component.RootDir] [Component.Normal "x"] =
      (if (Component.RootDir : Component) = Component.Normal "x" then
        relativeWalk true [] [] + 1 else 0) :=
  ⟨Or.inl rfl, c8_relative_match_rule.2.2.1 true Component.RootDir
    (Component.Normal "x") [] [] (Or.inl rfl)⟩

/-! ## The POSIX string layer: splitting lemmas -/

theorem splitSlash_ne_nil (l : List Char) : splitSlash l ≠ [] := by
  induction l with
  | nil => simp [splitSlash]
  | cons c cs ih =>
    by_cases h : c = '/'
    · simp [splitSlash, h]
    · simp only [splitSlash, if_neg h]
      cases hs : splitSlash cs with
      | nil => simp
      | cons t ts => simp

theorem splitSlash_append_slash (a b : List Char) :
    splitSlash (a ++ '/' :: b) = splitSlash a ++ splitSlash b := by
  induction a with
  | nil => simp [splitSlash]
  | cons c cs ih =>
    by_cases h : c = '/'
    · simp [splitSlash, h, ih]
    · simp only [List.cons_append, splitSlash, if_neg h, List.append_eq]
      rw [ih]
      cases hs : splitSlash cs with
      | nil => exact absurd hs (splitSlash_ne_nil cs)
      | cons t ts => simp

theorem splitSlash_noSlash (l : List Char) (h : '/' ∉ l) : splitSlash l = [l] := by
  induction l with
  | nil => rfl
  | cons c cs ih =>
    have hc : c ≠ '/' := fun e => h (e ▸ List.mem_cons_self _ _)
    have hcs : '/' ∉ cs := fun e => h (List.mem_cons_of_mem _ e)
    simp only [splitSlash, if_neg hc, ih hcs]

theorem noSlash_of_mem_splitSlash {l t : List Char} (h : t ∈ splitSlash l) : '/' ∉ t := by
  induction l generalizing t with
  | nil =>
    simp [splitSlash] at h
    simp [h]
  | cons c cs ih =>
    by_cases hc : c = '/'
    · simp only [splitSlash, if_pos hc] at h
      rcases List.mem_cons.mp h with rfl | h
      · simp
      · exact ih h
    · simp only [splitSlash, if_neg hc] at h
      cases hs : splitSlash cs with
      | nil => exact absurd hs (splitSlash_ne_nil cs)
      | cons u us =>
        rw [hs] at h
        rcases List.mem_cons.mp h with rfl | h
        · intro hmem
          rcases List.mem_cons.mp hmem with h1 | h1
          · exact hc h1.symm
          · exact ih (hs ▸ List.mem_cons_self u us) h1
        · exact ih (hs ▸ List.mem_cons_of_mem u h)

/-! ## The POSIX string layer: `PathBuf::push` and reassembly -/

theorem head?_mem {α : Type} {l : List α} {c : α} (h : l.head? = some c) : c ∈ l := by
  cases l with
  | nil => simp at h
  | cons a l =>
    rw [List.head?_cons] at h
    rw [← Option.some.inj h]
    exact List.mem_cons_self _ _

theorem getLast?_isSome_of_ne_nil {α : Type} {l : List α} (h : l ≠ []) :
    ∃ c, l.getLast? = some c := by
  cases e : l.getLast? with
  | none => exact absurd (List.getLast?_eq_none_iff.mp e) h
  | some c => exact ⟨c, rfl⟩

theorem interSlash_cons (a : String) (ps : List String) :
    interSlash (a :: ps) = a.data ++ slashPieces ps := by
  induction ps generalizing a with
  | nil => simp [interSlash, slashPieces]
  | cons b ts ih =>
    show a.data ++ '/' :: interSlash (b :: ts) = _
    rw [ih b]
    rfl

theorem posixPush_data_mid {acc piece : String} (hp : piece.data.head? ≠ some '/')
    (ha : acc.data ≠ []) (hl : acc.data.getLast? ≠ some '/') :
    (posixPush acc piece).data = acc.data ++ '/' :: piece.data := by
  unfold posixPush
  rw [if_neg hp, if_neg ha, if_neg hl, String.data_append, String.data_append,
    List.append_assoc, show ("/" : String).data = ['/'] from rfl]
  rfl

theorem posixPush_data_sepEnd {acc piece : String} (hp : piece.data.head? ≠ some '/')
    (ha : acc.data ≠ []) (hl : acc.data.getLast? = some '/') :
    (posixPush acc piece).data = acc.data ++ piece.data := by
  unfold posixPush
  rw [if_neg hp, if_neg ha, if_pos hl, String.data_append]

theorem posixPush_data_emptyAcc {acc piece : String} (hp : piece.data.head? ≠ some '/')
    (ha : acc.data = []) : (posixPush acc piece).data = piece.data := by
  unfold posixPush
  rw [if_neg hp, if_pos ha, String.data_append, ha]
  rfl

theorem foldl_posixPush_sepFree (ps : List String) : ∀ acc : String,
    (∀ p ∈ ps, sepFree p) → acc.data ≠ [] → acc.data.getLast? ≠ some '/' →
    (ps.foldl posixPush acc).data = acc.data ++ slashPieces ps := by
  induction ps with
  | nil => intro acc _ _ _; simp [slashPieces]
  | cons a ps ih =>
    intro acc hg hne hlast
    have hsf := hg a (List.mem_cons_self _ _)
    have hp : a.data.head? ≠ some '/' := fun e => hsf.2 (head?_mem e)
    rw [List.foldl_cons]
    have hstep : (posixPush acc a).data = acc.data ++ '/' :: a.data :=
      posixPush_data_mid hp hne hlast
    have hne2 : (posixPush acc a).data ≠ [] := by rw [hstep]; simp
    have hlast2 : (posixPush acc a).data.getLast? ≠ some '/' := by
      obtain ⟨c, hc⟩ := getLast?_isSome_of_ne_nil hsf.1
      have hcm : c ∈ a.data := List.mem_of_getLast?_eq_some hc
      rw [hstep, List.getLast?_append]
      have : ('/' :: a.data).getLast? = some c := by
        rw [show ('/' :: a.data) = ['/'] ++ a.data from rfl, List.getLast?_append, hc]
        rfl
      rw [this]
      intro he
      have hc' : c = '/' := by simpa using he
      exact hsf.2 (hc' ▸ hcm)
    rw [ih _ (fun p hp' => hg p (List.mem_cons_of_mem _ hp')) hne2 hlast2, hstep]
    simp [slashPieces]

theorem foldl_posixPush_from_empty (ps : List String) (h : ∀ p ∈ ps, sepFree p) :
    (ps.foldl posixPush "").data = interSlash ps := by
  cases ps with
  | nil => rfl
  | cons a ps' =>
    have hsf := h a (List.mem_cons_self _ _)
    have hp : a.data.head? ≠ some '/' := fun e => hsf.2 (head?_mem e)
    rw [List.foldl_cons]
    have hstep : (posixPush "" a).data = a.data := posixPush_data_emptyAcc hp rfl
    have hlast2 : (posixPush "" a).data.getLast? ≠ some '/' := by
      rw [hstep]
      intro he
      exact hsf.2 (List.mem_of_getLast?_eq_some he)
    rw [foldl_posixPush_sepFree ps' _ (fun p hp' => h p (List.mem_cons_of_mem _ hp'))
      (hstep ▸ hsf.1) hlast2, hstep, interSlash_cons]

/-! ## The POSIX string layer: canonical renderings reparse to themselves -/

theorem mk_data_eta (s : String) : String.mk s.data = s := rfl

theorem data_ne_of_ne {s : String} {l : List Char} (h : s ≠ String.mk l) :
    s.data ≠ l := fun e => h (String.ext e)

theorem goodTok_data_ne_dot {t : String} (h : goodTok t) : t.data ≠ ['.'] :=
  data_ne_of_ne h.2.1

theorem classifyTok_good {t : String} (h : goodTok t) :
    classifyTok t = Component.Normal t := by
  unfold classifyTok
  rw [if_neg h.2.2.1]

theorem assemble_rooted (ns : List String) (h : ∀ t ∈ ns, goodTok t) :
    (component_vec_to_path_buf
      (Component.RootDir :: ns.map Component.Normal)).data = '/' :: interSlash ns := by
  unfold component_vec_to_path_buf
  rw [List.foldl_cons]
  have h1 : posixPush "" (Component.RootDir.osStr) = "/" := by decide
  rw [h1, List.foldl_map]
  have hfn : (fun (acc : String) (t : String) =>
      posixPush acc (Component.Normal t).osStr) = posixPush := rfl
  rw [hfn]
  cases ns with
  | nil => rfl
  | cons a ns' =>
    have hga := h a (List.mem_cons_self _ _)
    have hsf := goodTok_sepFree hga
    have hp : a.data.head? ≠ some '/' := fun e => hsf.2 (head?_mem e)
    rw [List.foldl_cons]
    have hstep : (posixPush "/" a).data = '/' :: a.data := by
      have := @posixPush_data_sepEnd "/" a hp (by simp) (by rfl)
      rw [this]
      rfl
    have hlast2 : (posixPush "/" a).data.getLast? ≠ some '/' := by
      rw [hstep, show ('/' :: a.data) = ['/'] ++ a.data from rfl, List.getLast?_append]
      obtain ⟨c, hc⟩ := getLast?_isSome_of_ne_nil hsf.1
      rw [hc]
      intro he
      have hc' : c = '/' := by simpa using he
      exact hsf.2 (hc' ▸ List.mem_of_getLast?_eq_some hc)
    rw [foldl_posixPush_sepFree ns' _
      (fun p hp' => goodTok_sepFree (h p (List.mem_cons_of_mem _ hp')))
      (by rw [hstep]; simp) hlast2, hstep, interSlash_cons]
    rfl

theorem assemble_unrooted (cv : List Component) (ps : List String)
    (hmap : cv.map Component.osStr = ps) (h : ∀ p ∈ ps, sepFree p) :
    (component_vec_to_path_buf cv).data = interSlash ps := by
  unfold component_vec_to_path_buf
  rw [show cv.foldl (fun acc c => posixPush acc c.osStr) "" =
    (cv.map Component.osStr).foldl posixPush "" from (List.foldl_map _ _ _ _).symm, hmap]
  exact foldl_posixPush_from_empty ps h

theorem filter_splitSlash_interSlash (ps : List String)
    (h : ∀ t ∈ ps, sepFree t ∧ t.data ≠ ['.']) :
    (splitSlash (interSlash ps)).filter (fun l => decide (l ≠ [] ∧ l ≠ ['.'])) =
      ps.map String.data := by
  induction ps with
  | nil => simp [interSlash, splitSlash]
  | cons a ps ih =>
    obtain ⟨⟨hne, hns⟩, hdot⟩ := h a (List.mem_cons_self _ _)
    cases ps with
    | nil =>
      rw [show interSlash [a] = a.data from rfl, splitSlash_noSlash _ hns]
      simp [hne, hdot]
    | cons b ts =>
      rw [show interSlash (a :: b :: ts) = a.data ++ '/' :: interSlash (b :: ts) from rfl,
        splitSlash_append_slash, List.filter_append, splitSlash_noSlash _ hns,
        ih (fun t ht => h t (List.mem_cons_of_mem _ ht))]
      simp [hne, hdot]

theorem interSlash_head (p : String) (ps : List String) (hp : p.data ≠ []) :
    (interSlash (p :: ps)).head? = p.data.head? := by
  rw [interSlash_cons, List.head?_append]
  obtain ⟨c, hc⟩ : ∃ c, p.data.head? = some c := by
    cases e : p.data.head? with
    | none => exact absurd (List.head?_eq_none_iff.mp e) hp
    | some c => exact ⟨c, rfl⟩
  rw [hc]
  rfl

theorem splitSlash_interSlash_head (p : String) (ps : List String)
    (hp : '/' ∉ p.data) :
    (splitSlash (interSlash (p :: ps))).head? = some p.data := by
  cases ps with
  | nil => rw [show interSlash [p] = p.data from rfl, splitSlash_noSlash _ hp]; rfl
  | cons b ts =>
    rw [show interSlash (p :: b :: ts) = p.data ++ '/' :: interSlash (b :: ts) from rfl,
      splitSlash_append_slash, splitSlash_noSlash _ hp]
    rfl

theorem parse_rooted_render (ns : List String) (h : ∀ t ∈ ns, goodTok t) :
    parsePosix (String.mk ('/' :: interSlash ns)) =
      Component.RootDir :: ns.map Component.Normal := by
  unfold parsePosix
  have hc : (String.mk ('/' :: interSlash ns)).data.head? = some '/' := rfl
  rw [if_pos hc]
  congr 1
  unfold parseBody
  rw [show (String.mk ('/' :: interSlash ns)).data = '/' :: interSlash ns from rfl,
    show splitSlash ('/' :: interSlash ns) = [] :: splitSlash (interSlash ns) from by
      simp [splitSlash],
    show ([] :: splitSlash (interSlash ns)).filter
        (fun l => decide (l ≠ [] ∧ l ≠ ['.'])) =
      (splitSlash (interSlash ns)).filter (fun l => decide (l ≠ [] ∧ l ≠ ['.'])) from by
      simp,
    filter_splitSlash_interSlash ns
      (fun t ht => ⟨goodTok_sepFree (h t ht), goodTok_data_ne_dot (h t ht)⟩),
    List.map_map]
  refine List.map_congr_left ?_
  intro t ht
  show classifyTok (String.mk t.data) = Component.Normal t
  rw [mk_data_eta, classifyTok_good (h t ht)]

theorem parse_pieces_render (k : Nat) (ns : List String) (h : ∀ t ∈ ns, goodTok t)
    (hne : k ≠ 0 ∨ ns ≠ []) :
    parsePosix (String.mk (interSlash (List.replicate k ".." ++ ns))) =
      List.replicate k Component.ParentDir ++ ns.map Component.Normal := by
  have hprops : ∀ t ∈ List.replicate k ".." ++ ns, sepFree t ∧ t.data ≠ ['.'] := by
    intro t ht
    rcases List.mem_append.mp ht with ht | ht
    · have he := List.eq_of_mem_replicate ht
      subst he
      exact ⟨⟨by decide, by decide⟩, by decide⟩
    · exact ⟨goodTok_sepFree (h t ht), goodTok_data_ne_dot (h t ht)⟩
  obtain ⟨p, rest, hpr⟩ : ∃ p rest, List.replicate k ".." ++ ns = p :: rest := by
    cases k with
    | zero =>
      cases ns with
      | nil =>
        rcases hne with hk | hns
        · exact absurd rfl hk
        · exact absurd rfl hns
      | cons a as => exact ⟨a, as, rfl⟩
    | succ k' =>
      exact ⟨"..", List.replicate k' ".." ++ ns, by rw [List.replicate_succ]; rfl⟩
  have hpmem : p ∈ List.replicate k ".." ++ ns := by
    rw [hpr]; exact List.mem_cons_self _ _
  have hp := hprops p hpmem
  have hnotroot :
      (String.mk (interSlash (List.replicate k ".." ++ ns))).data.head? ≠ some '/' := by
    show (interSlash (List.replicate k ".." ++ ns)).head? ≠ some '/'
    rw [hpr, interSlash_head p rest hp.1.1]
    intro he
    exact hp.1.2 (head?_mem he)
  have hnotdot :
      (splitSlash (String.mk (interSlash (List.replicate k ".." ++ ns))).data).head? ≠
        some ['.'] := by
    show (splitSlash (interSlash (List.replicate k ".." ++ ns))).head? ≠ some ['.']
    rw [hpr, splitSlash_interSlash_head p rest hp.1.2]
    intro he
    exact hp.2 (Option.some.inj he)
  unfold parsePosix
  rw [if_neg hnotroot, if_neg hnotdot]
  unfold parseBody
  rw [show (String.mk (interSlash (List.replicate k ".." ++ ns))).data =
      interSlash (List.replicate k ".." ++ ns) from rfl,
    filter_splitSlash_interSlash _ hprops, List.map_map]
  have h1 : (List.replicate k ".." ++ ns).map
        ((fun l => classifyTok (String.mk l)) ∘ String.data) =
      (List.replicate k ".." ++ ns).map classifyTok :=
    List.map_congr_left (fun t _ => by
      show classifyTok (String.mk t.data) = classifyTok t
      rw [mk_data_eta])
  rw [h1, List.map_append, List.map_replicate,
    show classifyTok ".." = Component.ParentDir from by simp [classifyTok]]
  congr 1
  exact List.map_congr_left (fun t ht => classifyTok_good (h t ht))

/-! ## Collapse behaviour on decomposer output -/

theorem parseBody_ok (s : String) : ∀ c ∈ parseBody s, bodyOK c := by
  intro c hc
  unfold parseBody at hc
  obtain ⟨l, hl, rfl⟩ := List.mem_map.mp hc
  have hfl := List.mem_filter.mp hl
  have hnosl : '/' ∉ l := noSlash_of_mem_splitSlash hfl.1
  have hprops : l ≠ [] ∧ l ≠ ['.'] := of_decide_eq_true hfl.2
  unfold classifyTok
  by_cases hdd : String.mk l = ".."
  · rw [if_pos hdd]
    exact Or.inl rfl
  · rw [if_neg hdd]
    refine Or.inr ⟨String.mk l, rfl, ?_, ?_, hdd, hnosl⟩
    · exact fun e => hprops.1 (congrArg String.data e)
    · exact fun e => hprops.2 (congrArg String.data e)

theorem foldl_collapsePush_normals (ns : List String) : ∀ st : List Component,
    List.foldl collapsePush st (ns.map Component.Normal) =
      ns.reverse.map Component.Normal ++ st := by
  induction ns with
  | nil => intro st; simp
  | cons a ns' ih =>
    intro st
    rw [List.map_cons, List.foldl_cons,
      show collapsePush st (Component.Normal a) = Component.Normal a :: st from rfl, ih]
    simp

theorem foldl_collapsePush_parents (j : Nat) : ∀ k : Nat,
    List.foldl collapsePush (List.replicate k Component.ParentDir)
      (List.replicate j Component.ParentDir) =
      List.replicate (k + j) Component.ParentDir := by
  induction j with
  | zero => intro k; simp
  | succ j' ih =>
    intro k
    rw [List.replicate_succ, List.foldl_cons]
    have hstep : collapsePush (List.replicate k Component.ParentDir)
        Component.ParentDir = List.replicate (k + 1) Component.ParentDir := by
      cases k with
      | zero => rfl
      | succ k'' => rw [List.replicate_succ, List.replicate_succ, List.replicate_succ]; rfl
    rw [hstep, ih (k + 1)]
    congr 1
    omega

theorem foldl_collapsePush_body_rooted (body : List Component)
    (hb : ∀ c ∈ body, bodyOK c) :
    ∀ msRev : List String, (∀ t ∈ msRev, goodTok t) →
    ∃ ms2 : List String, (∀ t ∈ ms2, goodTok t) ∧
      List.foldl collapsePush
        (msRev.map Component.Normal ++ [Component.RootDir]) body =
        ms2.map Component.Normal ++ [Component.RootDir] := by
  induction body with
  | nil => intro msRev hg; exact ⟨msRev, hg, rfl⟩
  | cons c body' ih =>
    have hb' : ∀ c ∈ body', bodyOK c := fun c hc => hb c (List.mem_cons_of_mem _ hc)
    intro msRev hg
    rw [List.foldl_cons]
    rcases hb c (List.mem_cons_self _ _) with rfl | ⟨t, rfl, hgt⟩
    · cases msRev with
      | nil =>
        rw [show collapsePush (([] : List String).map Component.Normal ++
          [Component.RootDir]) Component.ParentDir =
          ([] : List String).map Component.Normal ++ [Component.RootDir] from rfl]
        exact ih hb' [] hg
      | cons m mr =>
        rw [show collapsePush ((m :: mr).map Component.Normal ++
          [Component.RootDir]) Component.ParentDir =
          mr.map Component.Normal ++ [Component.RootDir] from rfl]
        exact ih hb' mr (fun t ht => hg t (List.mem_cons_of_mem _ ht))
    · rw [show collapsePush (msRev.map Component.Normal ++ [Component.RootDir])
        (Component.Normal t) =
        (t :: msRev).map Component.Normal ++ [Component.RootDir] from rfl]
      refine ih hb' (t :: msRev) ?_
      intro x hx
      rcases List.mem_cons.mp hx with rfl | hx
      · exact hgt
      · exact hg x hx

theorem foldl_collapsePush_body_rel (body : List Component)
    (hb : ∀ c ∈ body, bodyOK c) :
    ∀ (msRev : List String) (k : Nat), (∀ t ∈ msRev, goodTok t) →
    ∃ (ms2 : List String) (k2 : Nat), (∀ t ∈ ms2, goodTok t) ∧
      List.foldl collapsePush
        (msRev.map Component.Normal ++ List.replicate k Component.ParentDir) body =
        ms2.map Component.Normal ++ List.replicate k2 Component.ParentDir := by
  induction body with
  | nil => intro msRev k hg; exact ⟨msRev, k, hg, rfl⟩
  | cons c body' ih =>
    have hb' : ∀ c ∈ body', bodyOK c := fun c hc => hb c (List.mem_cons_of_mem _ hc)
    intro msRev k hg
    rw [List.foldl_cons]
    rcases hb c (List.mem_cons_self _ _) with rfl | ⟨t, rfl, hgt⟩
    · cases msRev with
      | nil =>
        have hstep : collapsePush (([] : List String).map Component.Normal ++
            List.replicate k Component.ParentDir) Component.ParentDir =
            ([] : List String).map Component.Normal ++
              List.replicate (k + 1) Component.ParentDir := by
          cases k with
          | zero => rfl
          | succ k'' =>
            rw [List.replicate_succ, List.replicate_succ, List.replicate_succ]
            rfl
        rw [hstep]
        exact ih hb' [] (k + 1) hg
      | cons m mr =>
        rw [show collapsePush ((m :: mr).map Component.Normal ++
          List.replicate k Component.ParentDir) Component.ParentDir =
          mr.map Component.Normal ++ List.replicate k Component.ParentDir from rfl]
        exact ih hb' mr k (fun t ht => hg t (List.mem_cons_of_mem _ ht))
    · rw [show collapsePush (msRev.map Component.Normal ++
        List.replicate k Component.ParentDir) (Component.Normal t) =
        (t :: msRev).map Component.Normal ++
          List.replicate k Component.ParentDir from rfl]
      refine ih hb' (t :: msRev) k ?_
      intro x hx
      rcases List.mem_cons.mp hx with rfl | hx
      · exact hgt
      · exact hg x hx

theorem foldl_collapsePush_pops (j : Nat) : ∀ msRev : List String,
    j ≤ msRev.length →
    List.foldl collapsePush (msRev.map Component.Normal ++ [Component.RootDir])
      (List.replicate j Component.ParentDir) =
      (msRev.drop j).map Component.Normal ++ [Component.RootDir] := by
  induction j with
  | zero => intro msRev _; simp
  | succ j' ih =>
    intro msRev h
    cases msRev with
    | nil => simp at h
    | cons m mr =>
      rw [List.replicate_succ, List.foldl_cons,
        show collapsePush ((m :: mr).map Component.Normal ++ [Component.RootDir])
          Component.ParentDir = mr.map Component.Normal ++ [Component.RootDir] from rfl,
        ih mr (by simp at h; omega)]
      rfl

/-! ## Closed forms for `normalize` and `resolve` -/

theorem posixIsAbsolute_iff {s : String} :
    posixIsAbsolute s = true ↔ s.data.head? = some '/' := by
  unfold posixIsAbsolute
  exact decide_eq_true_iff

theorem posixNormalize_eq (s : String) :
    posixNormalize s = component_vec_to_path_buf
      (if (normalize_to_component_vec (parsePosix s)).length = 0
       then normalize_to_component_vec (parsePosix s) ++ [Component.CurDir]
       else normalize_to_component_vec (parsePosix s)) := rfl

theorem posixResolve_eq (cwd s : String) :
    posixResolve cwd s = if posixIsAbsolute s then posixNormalize s
      else posixNormalize (posixPush cwd s) := rfl

theorem collapse_parse_abs (t : String) (ht : posixIsAbsolute t = true) :
    ∃ ns : List String, (∀ x ∈ ns, goodTok x) ∧
      collapseRev (parsePosix t) = ns.map Component.Normal ++ [Component.RootDir] ∧
      normalize_to_component_vec (parsePosix t) =
        Component.RootDir :: ns.reverse.map Component.Normal := by
  have habs : t.data.head? = some '/' := posixIsAbsolute_iff.mp ht
  have hparse : parsePosix t = Component.RootDir :: parseBody t := by
    unfold parsePosix
    rw [if_pos habs]
  obtain ⟨ms2, hg2, hfold⟩ := foldl_collapsePush_body_rooted (parseBody t)
    (parseBody_ok t) [] (by intro x hx; simp at hx)
  have hcoll : collapseRev (parsePosix t) =
      ms2.map Component.Normal ++ [Component.RootDir] := by
    rw [hparse]
    exact hfold
  refine ⟨ms2, hg2, hcoll, ?_⟩
  rw [normalize_eq_collapseRev, hcoll]
  simp

theorem normalize_vec_rooted_normals (ns : List String) :
    normalize_to_component_vec (Component.RootDir :: ns.map Component.Normal) =
      Component.RootDir :: ns.map Component.Normal := by
  rw [normalize_eq_collapseRev]
  show (List.foldl collapsePush [Component.RootDir] (ns.map Component.Normal)).reverse = _
  rw [foldl_collapsePush_normals ns [Component.RootDir]]
  simp

theorem normalize_vec_rel (k : Nat) (ns : List String) :
    normalize_to_component_vec
        (List.replicate k Component.ParentDir ++ ns.map Component.Normal) =
      List.replicate k Component.ParentDir ++ ns.map Component.Normal := by
  rw [normalize_eq_collapseRev]
  show (List.foldl collapsePush []
    (List.replicate k Component.ParentDir ++ ns.map Component.Normal)).reverse = _
  rw [List.foldl_append,
    show List.foldl collapsePush [] (List.replicate k Component.ParentDir) =
      List.replicate k Component.ParentDir from by simpa using foldl_collapsePush_parents k 0,
    foldl_collapsePush_normals ns (List.replicate k Component.ParentDir)]
  simp

theorem posixNormalize_abs (t : String) (ht : posixIsAbsolute t = true) :
    ∃ ns : List String, (∀ x ∈ ns, goodTok x) ∧
      posixNormalize t = String.mk ('/' :: interSlash ns) ∧
      parsePosix (posixNormalize t) = Component.RootDir :: ns.map Component.Normal ∧
      posixIsAbsolute (posixNormalize t) = true := by
  obtain ⟨ms, hg, _, hnorm⟩ := collapse_parse_abs t ht
  have hgr : ∀ x ∈ ms.reverse, goodTok x := fun x hx => hg x (List.mem_reverse.mp hx)
  have hstr : posixNormalize t = String.mk ('/' :: interSlash ms.reverse) := by
    rw [posixNormalize_eq, hnorm, if_neg (by simp)]
    exact String.ext (assemble_rooted ms.reverse hgr)
  refine ⟨ms.reverse, hgr, hstr, ?_, ?_⟩
  · rw [hstr]
    exact parse_rooted_render ms.reverse hgr
  · rw [hstr]
    exact posixIsAbsolute_iff.mpr rfl

theorem normalize_idem_aux (s : String) :
    posixNormalize (posixNormalize s) = posixNormalize s := by
  by_cases habs : posixIsAbsolute s = true
  · obtain ⟨ns, hg, hstr, hrep, _⟩ := posixNormalize_abs s habs
    rw [posixNormalize_eq (posixNormalize s), hrep, normalize_vec_rooted_normals,
      if_neg (by simp), hstr]
    exact String.ext (assemble_rooted ns hg)
  · have hs : s.data.head? ≠ some '/' := by
      intro e
      rw [posixIsAbsolute_iff.mpr e] at habs
      exact habs rfl
    have hcoll : collapseRev (parsePosix s) =
        List.foldl collapsePush [] (parseBody s) := by
      unfold parsePosix
      rw [if_neg hs]
      by_cases hdot : (splitSlash s.data).head? = some ['.']
      · rw [if_pos hdot]
        rfl
      · rw [if_neg hdot]
        rfl
    obtain ⟨ms2, k2, hg2, hfold⟩ := foldl_collapsePush_body_rel (parseBody s)
      (parseBody_ok s) [] 0 (by intro x hx; simp at hx)
    have hgr : ∀ x ∈ ms2.reverse, goodTok x := fun x hx => hg2 x (List.mem_reverse.mp hx)
    have hvec : normalize_to_component_vec (parsePosix s) =
        List.replicate k2 Component.ParentDir ++ ms2.reverse.map Component.Normal := by
      rw [normalize_eq_collapseRev, hcoll,
        show List.foldl collapsePush [] (parseBody s) =
          ms2.map Component.Normal ++ List.replicate k2 Component.ParentDir from hfold]
      simp
    by_cases hemp : k2 = 0 ∧ ms2 = []
    · obtain ⟨rfl, rfl⟩ := hemp
      have hvec0 : normalize_to_component_vec (parsePosix s) = [] := by
        simpa using hvec
      have hdot : posixNormalize s = "." := by
        rw [posixNormalize_eq, hvec0]
        have h0 : (([] : List Component)).length = 0 := rfl
        rw [if_pos h0]
        decide
      rw [hdot]
      decide
    · have hlen : ¬(List.replicate k2 Component.ParentDir ++
          ms2.reverse.map Component.Normal).length = 0 := by
        intro hlen
        simp at hlen
        exact hemp ⟨hlen.1, hlen.2⟩
      have hne : k2 ≠ 0 ∨ ms2.reverse ≠ [] := by
        by_cases hk : k2 = 0
        · refine Or.inr ?_
          intro he
          exact hemp ⟨hk, by simpa using he⟩
        · exact Or.inl hk
      have hsep : ∀ p ∈ List.replicate k2 ".." ++ ms2.reverse, sepFree p := by
        intro p hp
        rcases List.mem_append.mp hp with hp | hp
        · have := List.eq_of_mem_replicate hp
          subst this
          exact ⟨by decide, by decide⟩
        · exact goodTok_sepFree (hgr p hp)
      have hmap : (List.replicate k2 Component.ParentDir ++
          ms2.reverse.map Component.Normal).map Component.osStr =
          List.replicate k2 ".." ++ ms2.reverse := by
        rw [List.map_append, List.map_replicate, List.map_map]
        congr 1
        exact List.map_congr_left (fun t _ => rfl) |>.trans (List.map_id _)
      have hstr : posixNormalize s =
          String.mk (interSlash (List.replicate k2 ".." ++ ms2.reverse)) := by
        rw [posixNormalize_eq, hvec, if_neg hlen]
        exact String.ext (assemble_unrooted _ _ hmap hsep)
      have hrep : parsePosix (posixNormalize s) =
          List.replicate k2 Component.ParentDir ++ ms2.reverse.map Component.Normal := by
        rw [hstr]
        exact parse_pieces_render k2 ms2.reverse hgr hne
      rw [posixNormalize_eq (posixNormalize s), hrep, normalize_vec_rel,
        if_neg hlen, hstr]
      exact String.ext (assemble_unrooted _ _ hmap hsep)

theorem posixResolve_canonical (cwd s : String) (hcwd : posixIsAbsolute cwd = true) :
    ∃ ns : List String, (∀ x ∈ ns, goodTok x) ∧
      posixResolve cwd s = String.mk ('/' :: interSlash ns) ∧
      parsePosix (posixResolve cwd s) = Component.RootDir :: ns.map Component.Normal := by
  rw [posixResolve_eq]
  by_cases habs : posixIsAbsolute s = true
  · rw [if_pos habs]
    obtain ⟨ns, hg, hstr, hrep, _⟩ := posixNormalize_abs s habs
    exact ⟨ns, hg, hstr, hstr ▸ hrep⟩
  · rw [if_neg habs]
    have hcwdh : cwd.data.head? = some '/' := posixIsAbsolute_iff.mp hcwd
    have hcne : cwd.data ≠ [] := by
      intro e
      rw [e] at hcwdh
      simp at hcwdh
    have hs : s.data.head? ≠ some '/' := by
      intro e
      rw [posixIsAbsolute_iff.mpr e] at habs
      exact habs rfl
    have habs2 : posixIsAbsolute (posixPush cwd s) = true := by
      rw [posixIsAbsolute_iff]
      by_cases hl : cwd.data.getLast? = some '/'
      · rw [posixPush_data_sepEnd hs hcne hl, List.head?_append, hcwdh]
        rfl
      · rw [posixPush_data_mid hs hcne hl, List.head?_append, hcwdh]
        rfl
    obtain ⟨ns, hg, hstr, hrep, _⟩ := posixNormalize_abs (posixPush cwd s) habs2
    exact ⟨ns, hg, hstr, hstr ▸ hrep⟩

/-- The output of `normalize` is `"."`, a rooted canonical string, or a
canonical `".."`-run-plus-segments string. -/
theorem posixNormalize_shape (s : String) :
    posixNormalize s = "." ∨
    (∃ ns : List String, (∀ x ∈ ns, goodTok x) ∧
      posixNormalize s = String.mk ('/' :: interSlash ns)) ∨
    (∃ (k : Nat) (ns : List String), (∀ x ∈ ns, goodTok x) ∧ (k ≠ 0 ∨ ns ≠ []) ∧
      posixNormalize s = String.mk (interSlash (List.replicate k ".." ++ ns))) := by
  by_cases habs : posixIsAbsolute s = true
  · obtain ⟨ns, hg, hstr, _, _⟩ := posixNormalize_abs s habs
    exact Or.inr (Or.inl ⟨ns, hg, hstr⟩)
  · have hs : s.data.head? ≠ some '/' := by
      intro e
      rw [posixIsAbsolute_iff.mpr e] at habs
      exact habs rfl
    have hcoll : collapseRev (parsePosix s) =
        List.foldl collapsePush [] (parseBody s) := by
      unfold parsePosix
      rw [if_neg hs]
      by_cases hdot : (splitSlash s.data).head? = some ['.']
      · rw [if_pos hdot]
        rfl
      · rw [if_neg hdot]
        rfl
    obtain ⟨ms2, k2, hg2, hfold⟩ := foldl_collapsePush_body_rel (parseBody s)
      (parseBody_ok s) [] 0 (by intro x hx; simp at hx)
    have hgr : ∀ x ∈ ms2.reverse, goodTok x := fun x hx => hg2 x (List.mem_reverse.mp hx)
    have hvec : normalize_to_component_vec (parsePosix s) =
        List.replicate k2 Component.ParentDir ++ ms2.reverse.map Component.Normal := by
      rw [normalize_eq_collapseRev, hcoll,
        show List.foldl collapsePush [] (parseBody s) =
          ms2.map Component.Normal ++ List.replicate k2 Component.ParentDir from hfold]
      simp
    by_cases hemp : k2 = 0 ∧ ms2 = []
    · obtain ⟨rfl, rfl⟩ := hemp
      refine Or.inl ?_
      have hvec0 : normalize_to_component_vec (parsePosix s) = [] := by simpa using hvec
      rw [posixNormalize_eq, hvec0]
      have h0 : (([] : List Component)).length = 0 := rfl
      rw [if_pos h0]
      decide
    · have hlen : ¬(List.replicate k2 Component.ParentDir ++
          ms2.reverse.map Component.Normal).length = 0 := by
        intro hlen
        simp at hlen
        exact hemp ⟨hlen.1, hlen.2⟩
      have hne : k2 ≠ 0 ∨ ms2.reverse ≠ [] := by
        by_cases hk : k2 = 0
        · refine Or.inr ?_
          intro he
          exact hemp ⟨hk, by simpa using he⟩
        · exact Or.inl hk
      have hsep : ∀ p ∈ List.replicate k2 ".." ++ ms2.reverse, sepFree p := by
        intro p hp
        rcases List.mem_append.mp hp with hp | hp
        · have := List.eq_of_mem_replicate hp
          subst this
          exact ⟨by decide, by decide⟩
        · exact goodTok_sepFree (hgr p hp)
      have hmap : (List.replicate k2 Component.ParentDir ++
          ms2.reverse.map Component.Normal).map Component.osStr =
          List.replicate k2 ".." ++ ms2.reverse := by
        rw [List.map_append, List.map_replicate, List.map_map]
        congr 1
        exact List.map_congr_left (fun t _ => rfl) |>.trans (List.map_id _)
      refine Or.inr (Or.inr ⟨k2, ms2.reverse, hgr, hne, ?_⟩)
      rw [posixNormalize_eq, hvec, if_neg hlen]
      exact String.ext (assemble_unrooted _ _ hmap hsep)

/-! ## Claims C4, C5, C6, C7 -/

/-- C4.  `resolve` always returns an absolute path, assuming the cached
working directory is absolute (as `std::env::current_dir` guarantees). -/
theorem c4_resolve_absolute (cwd p : String) (hcwd : posixIsAbsolute cwd = true) :
    posixIsAbsolute (posixResolve cwd p) = true := by
  obtain ⟨ns, _, hstr, _⟩ := posixResolve_canonical cwd p hcwd
  rw [hstr]
  exact posixIsAbsolute_iff.mpr rfl

/-- Witness for C4 at a concrete input. -/
theorem c4_resolve_absolute_witness :
    posixIsAbsolute "/home/u" = true ∧
    posixIsAbsolute (posixResolve "/home/u" "a/../b") = true :=
  ⟨by decide, c4_resolve_absolute "/home/u" "a/../b" (by decide)⟩

/-- C5.  `normalize` is idempotent. -/
theorem c5_normalize_idempotent (p : String) :
    posixNormalize (posixNormalize p) = posixNormalize p :=
  normalize_idem_aux p

/-- C6.  `resolve` is idempotent on already-resolved input, assuming the
cached working directory is absolute. -/
theorem c6_resolve_idempotent (cwd p : String) (hcwd : posixIsAbsolute cwd = true) :
    posixResolve cwd (posixResolve cwd p) = posixResolve cwd p := by
  have habs : posixIsAbsolute (posixResolve cwd p) = true := by
    obtain ⟨ns, _, hstr, _⟩ := posixResolve_canonical cwd p hcwd
    rw [hstr]
    exact posixIsAbsolute_iff.mpr rfl
  rw [posixResolve_eq cwd (posixResolve cwd p), if_pos habs]
  by_cases hp : posixIsAbsolute p = true
  · rw [posixResolve_eq cwd p, if_pos hp]
    exact normalize_idem_aux p
  · rw [posixResolve_eq cwd p, if_neg hp]
    exact normalize_idem_aux _

/-- Witness for C6 at a concrete input. -/
theorem c6_resolve_idempotent_witness :
    posixIsAbsolute "/home/u" = true ∧
    posixResolve "/home/u" (posixResolve "/home/u" "x/../y") =
      posixResolve "/home/u" "x/../y" :=
  ⟨by decide, c6_resolve_idempotent "/home/u" "x/../y" (by decide)⟩

/-- C7.  `normalize("")` is `"."`; the output of `normalize` is never the
empty string (POSIX), and the Windows empty-result check never leaves an
empty component vector (a `CurDir` is pushed when the collapse result is
empty or a bare prefix). -/
theorem c7_normalize_empty :
    posixNormalize "" = "." ∧
    (∀ s : String, posixNormalize s ≠ "") ∧
    (∀ cs : List Component, windowsFinalizeComponents cs ≠ []) := by
  refine ⟨by decide, ?_, ?_⟩
  · intro s
    rcases posixNormalize_shape s with h | ⟨ns, _, h⟩ | ⟨k, ns, hg, hne, h⟩
    · rw [h]
      decide
    · rw [h]
      intro e
      have := congrArg String.data e
      simp at this
    · rw [h]
      intro e
      have hd := congrArg String.data e
      obtain ⟨p, rest, hpr⟩ : ∃ p rest, List.replicate k ".." ++ ns = p :: rest := by
        cases k with
        | zero =>
          cases ns with
          | nil =>
            rcases hne with hk | hns
            · exact absurd rfl hk
            · exact absurd rfl hns
          | cons a as => exact ⟨a, as, rfl⟩
        | succ k' =>
          exact ⟨"..", List.replicate k' ".." ++ ns, by rw [List.replicate_succ]; rfl⟩
      have hpmem : p ∈ List.replicate k ".." ++ ns := by
        rw [hpr]; exact List.mem_cons_self _ _
      have hpne : p.data ≠ [] := by
        rcases List.mem_append.mp hpmem with hp | hp
        · have := List.eq_of_mem_replicate hp
          subst this
          decide
        · exact (goodTok_sepFree (hg p hp)).1
      rw [hpr, interSlash_cons] at hd
      have : p.data = [] ∧ slashPieces rest = [] := by
        constructor
        · cases hp : p.data with
          | nil => rfl
          | cons c cl =>
            rw [hp] at hd
            simp at hd
        · cases hsp : slashPieces rest with
          | nil => rfl
          | cons c cl =>
            rw [hsp] at hd
            rcases List.append_eq_nil.mp hd with ⟨_, h2⟩
            exact absurd h2 (by simp)
      exact hpne this.1
  · intro cs
    unfold windowsFinalizeComponents
    cases h : normalize_to_component_vec cs with
    | nil => simp
    | cons c rest =>
      cases c <;> cases rest <;> simp

/-! ## A closed form for `relative` on canonical absolute inputs -/

theorem filter_keep_rooted (ns : List String) :
    (Component.RootDir :: ns.map Component.Normal).filter keepComponent =
      Component.RootDir :: ns.map Component.Normal := by
  rw [List.filter_eq_self]
  intro a ha
  rcases List.mem_cons.mp ha with rfl | ha
  · rfl
  · obtain ⟨t, _, rfl⟩ := List.mem_map.mp ha
    rfl

theorem walk_root_cons (A B : List Component) :
    relativeWalk false (Component.RootDir :: A) (Component.RootDir :: B) =
      relativeWalk false A B + 1 := by
  show (if matchesStep false Component.RootDir Component.RootDir then
    relativeWalk false A B + 1 else 0) = _
  rw [if_pos (by decide)]

theorem relativeWalk_le_left (win : Bool) : ∀ A B : List Component,
    relativeWalk win A B ≤ A.length := by
  intro A
  induction A with
  | nil => intro B; cases B <;> simp [relativeWalk]
  | cons a as ih =>
    intro B
    cases B with
    | nil => simp [relativeWalk]
    | cons b bs =>
      show (if matchesStep win a b then relativeWalk win as bs + 1 else 0) ≤ _
      by_cases h : matchesStep win a b = true
      · rw [if_pos h]
        simpa using ih bs
      · rw [if_neg h]
        simp

theorem relativeWalk_false_take : ∀ A B : List Component,
    A.take (relativeWalk false A B) = B.take (relativeWalk false A B) := by
  intro A
  induction A with
  | nil => intro B; cases B <;> simp [relativeWalk]
  | cons a as ih =>
    intro B
    cases B with
    | nil => simp [relativeWalk]
    | cons b bs =>
      show (a :: as).take (if matchesStep false a b then relativeWalk false as bs + 1 else 0) =
        (b :: bs).take (if matchesStep false a b then relativeWalk false as bs + 1 else 0)
      by_cases h : matchesStep false a b = true
      · have hab : a = b := by
          have : (a == b) = true := by simpa [matchesStep] using h
          exact eq_of_beq this
        rw [if_pos h, List.take_succ_cons, List.take_succ_cons, hab, ih bs]
      · rw [if_neg h]
        simp

theorem posixRelative_closed (cwd p q : String)
    (bns tns : List String)
    (hbrep : parsePosix (posixResolve cwd q) =
      Component.RootDir :: bns.map Component.Normal)
    (htrep : parsePosix (posixResolve cwd p) =
      Component.RootDir :: tns.map Component.Normal)
    (hne : ¬ posixResolve cwd q = posixResolve cwd p) :
    posixRelative cwd p q = List.foldl posixPush ""
      (List.replicate (bns.length -
          relativeWalk false (bns.map Component.Normal) (tns.map Component.Normal)) ".." ++
        tns.drop (relativeWalk false (bns.map Component.Normal)
          (tns.map Component.Normal))) := by
  unfold posixRelative
  simp only [if_neg hne]
  rw [hbrep, htrep, filter_keep_rooted bns, filter_keep_rooted tns, walk_root_cons]
  rw [List.length_cons, List.length_map, Nat.succ_sub_succ_eq_sub, List.drop_succ_cons,
    ← List.map_drop, List.map_map]
  rw [show (tns.drop (relativeWalk false (bns.map Component.Normal)
      (tns.map Component.Normal))).map (Component.osStr ∘ Component.Normal) =
    tns.drop (relativeWalk false (bns.map Component.Normal) (tns.map Component.Normal)) from
    (List.map_congr_left (fun t _ => rfl)).trans (List.map_id _)]
  rw [← List.foldl_append]

/-! ## Claim C10: `relative` never returns an absolute path (POSIX) -/

/-- C10.  On POSIX, `relative` never returns an absolute path (assuming the
cached working directory is absolute): both arguments resolve to rooted
canonical forms sharing the leading `RootDir`, so the output is empty or a
`".."`/`Normal`-segment path, which never starts with `'/'`. -/
theorem c10_relative_never_absolute (cwd p q : String)
    (hcwd : posixIsAbsolute cwd = true) :
    posixIsAbsolute (posixRelative cwd p q) = false := by
  by_cases heq : posixResolve cwd q = posixResolve cwd p
  · have hrel : posixRelative cwd p q = "" := by
      unfold posixRelative
      simp [heq]
    rw [hrel]
    decide
  · obtain ⟨bns, hbg, _, hbrep⟩ := posixResolve_canonical cwd q hcwd
    obtain ⟨tns, htg, _, htrep⟩ := posixResolve_canonical cwd p hcwd
    rw [posixRelative_closed cwd p q bns tns hbrep htrep heq]
    have hsep : ∀ x ∈ List.replicate (bns.length -
        relativeWalk false (bns.map Component.Normal) (tns.map Component.Normal)) ".." ++
        tns.drop (relativeWalk false (bns.map Component.Normal)
          (tns.map Component.Normal)), sepFree x := by
      intro x hx
      rcases List.mem_append.mp hx with hx | hx
      · have := List.eq_of_mem_replicate hx
        subst this
        exact ⟨by decide, by decide⟩
      · exact goodTok_sepFree (htg x (List.mem_of_mem_drop hx))
    have hdata := foldl_posixPush_from_empty _ hsep
    have hhead : (List.foldl posixPush ""
        (List.replicate (bns.length -
          relativeWalk false (bns.map Component.Normal) (tns.map Component.Normal)) ".." ++
          tns.drop (relativeWalk false (bns.map Component.Normal)
            (tns.map Component.Normal)))).data.head? ≠ some '/' := by
      cases hp : List.replicate (bns.length -
          relativeWalk false (bns.map Component.Normal) (tns.map Component.Normal)) ".." ++
          tns.drop (relativeWalk false (bns.map Component.Normal)
            (tns.map Component.Normal)) with
      | nil => decide
      | cons x rest =>
        have hx := hsep x (by rw [hp]; exact List.mem_cons_self _ _)
        rw [hp] at hdata
        rw [hdata, interSlash_head x rest hx.1]
        intro he
        exact hx.2 (head?_mem he)
    rw [show posixIsAbsolute (List.foldl posixPush ""
      (List.replicate (bns.length -
        relativeWalk false (bns.map Component.Normal) (tns.map Component.Normal)) ".." ++
        tns.drop (relativeWalk false (bns.map Component.Normal)
          (tns.map Component.Normal)))) = decide ((List.foldl posixPush ""
      (List.replicate (bns.length -
        relativeWalk false (bns.map Component.Normal) (tns.map Component.Normal)) ".." ++
        tns.drop (relativeWalk false (bns.map Component.Normal)
          (tns.map Component.Normal)))).data.head? = some '/') from rfl]
    exact decide_eq_false hhead

/-- Witness for C10 at a concrete input. -/
theorem c10_relative_never_absolute_witness :
    posixIsAbsolute "/home/u" = true ∧
    posixIsAbsolute (posixRelative "/home/u" "/a/b" "/a/c") = false :=
  ⟨by decide, c10_relative_never_absolute "/home/u" "/a/b" "/a/c" (by decide)⟩

/-! ## Lemmas for the round-trip claim -/

theorem parse_abs_append (t r : String) (ht : t.data.head? = some '/') :
    parsePosix (t ++ "/" ++ r) = parsePosix t ++ parseBody r := by
  have hdata : (t ++ "/" ++ r).data = t.data ++ '/' :: r.data := by
    rw [String.data_append, String.data_append, List.append_assoc]
    rfl
  have hhead : (t ++ "/" ++ r).data.head? = some '/' := by
    rw [hdata, List.head?_append, ht]
    rfl
  unfold parsePosix
  rw [if_pos hhead, if_pos ht]
  show Component.RootDir :: parseBody (t ++ "/" ++ r) =
    (Component.RootDir :: parseBody t) ++ parseBody r
  rw [List.cons_append]
  congr 1
  unfold parseBody
  rw [hdata, splitSlash_append_slash, List.filter_append, List.map_append]

theorem parseBody_pieces (k : Nat) (ns : List String) (h : ∀ t ∈ ns, goodTok t) :
    parseBody (String.mk (interSlash (List.replicate k ".." ++ ns))) =
      List.replicate k Component.ParentDir ++ ns.map Component.Normal := by
  have hprops : ∀ t ∈ List.replicate k ".." ++ ns, sepFree t ∧ t.data ≠ ['.'] := by
    intro t ht
    rcases List.mem_append.mp ht with ht | ht
    · have he := List.eq_of_mem_replicate ht
      subst he
      exact ⟨⟨by decide, by decide⟩, by decide⟩
    · exact ⟨goodTok_sepFree (h t ht), goodTok_data_ne_dot (h t ht)⟩
  unfold parseBody
  rw [show (String.mk (interSlash (List.replicate k ".." ++ ns))).data =
      interSlash (List.replicate k ".." ++ ns) from rfl,
    filter_splitSlash_interSlash _ hprops, List.map_map]
  have h1 : (List.replicate k ".." ++ ns).map
        ((fun l => classifyTok (String.mk l)) ∘ String.data) =
      (List.replicate k ".." ++ ns).map classifyTok :=
    List.map_congr_left (fun t _ => by
      show classifyTok (String.mk t.data) = classifyTok t
      rw [mk_data_eta])
  rw [h1, List.map_append, List.map_replicate,
    show classifyTok ".." = Component.ParentDir from by simp [classifyTok]]
  congr 1
  exact List.map_congr_left (fun t ht => classifyTok_good (h t ht))

theorem concat_collapse (yms xns : List String) (m : Nat)
    (hmle : m ≤ yms.reverse.length)
    (htake : yms.reverse.take m = xns.take m) :
    (List.foldl collapsePush (yms.map Component.Normal ++ [Component.RootDir])
      (List.replicate (yms.reverse.length - m) Component.ParentDir ++
        (xns.drop m).map Component.Normal)).reverse =
      Component.RootDir :: xns.map Component.Normal := by
  rw [List.foldl_append,
    foldl_collapsePush_pops (yms.reverse.length - m) yms
      (by simp only [List.length_reverse]; omega),
    foldl_collapsePush_normals]
  have hdrop : yms.drop (yms.reverse.length - m) = (xns.take m).reverse := by
    have h1 : yms.drop (yms.reverse.length - m) =
        yms.reverse.reverse.drop (yms.reverse.length - m) := by
      rw [List.reverse_reverse]
    rw [h1, List.drop_reverse,
      show yms.reverse.length - (yms.reverse.length - m) = m from by omega,
      htake]
  rw [hdrop]
  have hA : ((xns.drop m).reverse.map Component.Normal).reverse =
      (xns.drop m).map Component.Normal := by
    rw [List.map_reverse, List.reverse_reverse]
  have hB : (((xns.take m).reverse.map Component.Normal) ++
      [Component.RootDir]).reverse =
      Component.RootDir :: (xns.take m).map Component.Normal := by
    rw [List.reverse_append, List.map_reverse, List.reverse_reverse]
    rfl
  rw [List.reverse_append, hB, hA, List.cons_append, ← List.map_append,
    List.take_append_drop]


/-! ## Claim C1: the round trip -/

/-- C1 as stated is false: with `relative(base, target)` being the code's
`base.relative(target)`, the composition must be applied to `target`, not
`base`.  Concretely, `relative("/bin", "/var/lib") = "../../bin"`, and
resolving `"/bin" + "/" + "../../bin"` yields `"/bin"`, not
`resolve("/var/lib")`. -/
theorem c1_round_trip_counterexample :
    posixResolve "/" ("/bin" ++ "/" ++ posixRelative "/" "/bin" "/var/lib") ≠
      posixResolve "/" "/var/lib" := by decide

/-- C1 (amended).  For absolute `base` and `target`,
`resolve(target + "/" + relative(base, target)) = resolve(base)`: the
result of `relative(base, target)` leads from `target` (the second
argument, resolved) to `base` (the first argument, resolved). -/
theorem c1_round_trip_amended (cwd base target : String)
    (hb : posixIsAbsolute base = true) (ht : posixIsAbsolute target = true) :
    posixResolve cwd (target ++ "/" ++ posixRelative cwd base target) =
      posixResolve cwd base := by
  have hthead : target.data.head? = some '/' := posixIsAbsolute_iff.mp ht
  have hResT : posixResolve cwd target = posixNormalize target := by
    rw [posixResolve_eq, if_pos ht]
  have hResB : posixResolve cwd base = posixNormalize base := by
    rw [posixResolve_eq, if_pos hb]
  obtain ⟨yms, hymg, hycoll, hyvec⟩ := collapse_parse_abs target ht
  have hygr : ∀ x ∈ yms.reverse, goodTok x := fun x hx => hymg x (List.mem_reverse.mp hx)
  have hynorm : posixNormalize target = String.mk ('/' :: interSlash yms.reverse) := by
    rw [posixNormalize_eq, hyvec, if_neg (by simp)]
    exact String.ext (assemble_rooted yms.reverse hygr)
  have hyrep : parsePosix (posixResolve cwd target) =
      Component.RootDir :: yms.reverse.map Component.Normal := by
    rw [hResT, hynorm]
    exact parse_rooted_render yms.reverse hygr
  obtain ⟨xns, hxg, hxstr, hxrep0, _⟩ := posixNormalize_abs base hb
  have hxrep : parsePosix (posixResolve cwd base) =
      Component.RootDir :: xns.map Component.Normal := by
    rw [hResB]
    exact hxrep0
  by_cases heq : posixResolve cwd target = posixResolve cwd base
  · have hrel : posixRelative cwd base target = "" := by
      unfold posixRelative
      simp [heq]
    rw [hrel]
    have habs2 : posixIsAbsolute (target ++ "/" ++ "") = true := by
      rw [posixIsAbsolute_iff,
        show (target ++ "/" ++ "").data = target.data ++ '/' :: ("" : String).data from by
          rw [String.data_append, String.data_append, List.append_assoc]; rfl,
        List.head?_append, hthead]
      rfl
    rw [posixResolve_eq cwd (target ++ "/" ++ ""), if_pos habs2]
    have hpeq : parsePosix (target ++ "/" ++ "") = parsePosix target := by
      rw [parse_abs_append target "" hthead,
        show parseBody "" = [] from by decide, List.append_nil]
    rw [posixNormalize_eq, hpeq, ← posixNormalize_eq target, ← hResT, heq]
  · have hrelC := posixRelative_closed cwd base target yms.reverse xns hyrep hxrep heq
    have hmle : relativeWalk false (yms.reverse.map Component.Normal) (xns.map Component.Normal) ≤ yms.reverse.length := by
      have h0 := relativeWalk_le_left false (yms.reverse.map Component.Normal)
        (xns.map Component.Normal)
      simpa using h0
    have htake : yms.reverse.take (relativeWalk false (yms.reverse.map Component.Normal) (xns.map Component.Normal)) = xns.take (relativeWalk false (yms.reverse.map Component.Normal) (xns.map Component.Normal)) := by
      have h2 := relativeWalk_false_take (yms.reverse.map Component.Normal)
        (xns.map Component.Normal)
      rw [← List.map_take, ← List.map_take] at h2
      exact List.map_injective_iff.mpr (fun a b hh => Component.Normal.inj hh) h2
    by_cases hpieces : List.replicate (yms.reverse.length - relativeWalk false (yms.reverse.map Component.Normal) (xns.map Component.Normal)) ".." ++
        xns.drop (relativeWalk false (yms.reverse.map Component.Normal) (xns.map Component.Normal)) = []
    · exfalso
      obtain ⟨h1, h2⟩ := List.append_eq_nil.mp hpieces
      have hy : yms.reverse.length ≤ relativeWalk false (yms.reverse.map Component.Normal) (xns.map Component.Normal) := by
        have h3 := congrArg List.length h1
        simp only [List.length_replicate, List.length_nil] at h3
        omega
      have hx2 : xns.length ≤ relativeWalk false (yms.reverse.map Component.Normal) (xns.map Component.Normal) := by
        have h3 := congrArg List.length h2
        simp only [List.length_drop, List.length_nil] at h3
        omega
      apply heq
      rw [hResT, hResB, hynorm, hxstr,
        show yms.reverse = xns from by
          calc yms.reverse = yms.reverse.take (relativeWalk false (yms.reverse.map Component.Normal) (xns.map Component.Normal)) := (List.take_of_length_le hy).symm
            _ = xns.take (relativeWalk false (yms.reverse.map Component.Normal) (xns.map Component.Normal)) := htake
            _ = xns := List.take_of_length_le hx2]
    · have hsep : ∀ x ∈ List.replicate (yms.reverse.length - relativeWalk false (yms.reverse.map Component.Normal) (xns.map Component.Normal)) ".." ++
          xns.drop (relativeWalk false (yms.reverse.map Component.Normal) (xns.map Component.Normal)), sepFree x := by
        intro x hx
        rcases List.mem_append.mp hx with hx | hx
        · have he := List.eq_of_mem_replicate hx
          subst he
          exact ⟨by decide, by decide⟩
        · exact goodTok_sepFree (hxg x (List.mem_of_mem_drop hx))
      have hrstr : posixRelative cwd base target =
          String.mk (interSlash (List.replicate (yms.reverse.length - relativeWalk false (yms.reverse.map Component.Normal) (xns.map Component.Normal)) ".." ++
            xns.drop (relativeWalk false (yms.reverse.map Component.Normal) (xns.map Component.Normal)))) := by
        rw [hrelC]
        exact String.ext (foldl_posixPush_from_empty _ hsep)
      have hgdrop : ∀ t ∈ xns.drop (relativeWalk false (yms.reverse.map Component.Normal) (xns.map Component.Normal)), goodTok t :=
        fun t ht2 => hxg t (List.mem_of_mem_drop ht2)
      have hconcat : parsePosix (target ++ "/" ++ posixRelative cwd base target) =
          parsePosix target ++ (List.replicate (yms.reverse.length - relativeWalk false (yms.reverse.map Component.Normal) (xns.map Component.Normal))
            Component.ParentDir ++ (xns.drop (relativeWalk false (yms.reverse.map Component.Normal) (xns.map Component.Normal))).map Component.Normal) := by
        rw [parse_abs_append target _ hthead, hrstr, parseBody_pieces _ _ hgdrop]
      have habs2 : posixIsAbsolute (target ++ "/" ++ posixRelative cwd base target) = true := by
        rw [posixIsAbsolute_iff,
          show (target ++ "/" ++ posixRelative cwd base target).data =
            target.data ++ '/' :: (posixRelative cwd base target).data from by
            rw [String.data_append, String.data_append, List.append_assoc]; rfl,
          List.head?_append, hthead]
        rfl
      have hvec : normalize_to_component_vec
          (parsePosix (target ++ "/" ++ posixRelative cwd base target)) =
          Component.RootDir :: xns.map Component.Normal := by
        rw [hconcat, normalize_eq_collapseRev]
        show (List.foldl collapsePush [] (parsePosix target ++
          (List.replicate (yms.reverse.length - relativeWalk false (yms.reverse.map Component.Normal) (xns.map Component.Normal)) Component.ParentDir ++
            (xns.drop (relativeWalk false (yms.reverse.map Component.Normal) (xns.map Component.Normal))).map Component.Normal))).reverse = _
        rw [List.foldl_append]
        have hycoll2 : List.foldl collapsePush [] (parsePosix target) =
            yms.map Component.Normal ++ [Component.RootDir] := hycoll
        rw [hycoll2]
        exact concat_collapse yms xns (relativeWalk false (yms.reverse.map Component.Normal) (xns.map Component.Normal)) hmle htake
      rw [posixResolve_eq cwd (target ++ "/" ++ posixRelative cwd base target),
        if_pos habs2, posixNormalize_eq, hvec, if_neg (by simp), hResB, hxstr]
      exact String.ext (assemble_rooted xns hxg)

/-- Witness for the amended C1 at a concrete input. -/
theorem c1_round_trip_amended_witness :
    posixIsAbsolute "/bin" = true ∧ posixIsAbsolute "/var/lib" = true ∧
    posixResolve "/" ("/var/lib" ++ "/" ++ posixRelative "/" "/bin" "/var/lib") =
      posixResolve "/" "/bin" :=
  ⟨by decide, by decide,
    c1_round_trip_amended "/" "/bin" "/var/lib" (by decide) (by decide)⟩
